import Mathlib

/-!
Shallow embedding of the portfolio valuation engine of the
tanstack-stocks-rspack repository (apps/api/src/routes/stocks.ts) and of the
portfolio CRUD handlers, together with proofs about the claims of the
specification.

Conventions of the embedding:
* JavaScript numbers are modelled as exact rationals (`ℚ`).  A JavaScript
  division whose divisor is `0` produces a non-finite value (`Infinity` or
  `NaN`); such a non-finite result is modelled as `none` of `Option ℚ`
  (see `jsDiv`).  All other arithmetic in the engine stays finite when its
  inputs are finite, so plain `ℚ` is used there.
* The JavaScript `Map` used by `calculateHoldings` is insertion ordered; it
  is modelled as an association list where `accSet` overwrites in place and
  appends new keys at the end.
* The database layers (`prisma.transaction.findMany` ordered by
  `transactionDate`, `prisma.portfolio.*`) are modelled by explicit lists:
  a transaction ledger is the date-ordered list of transactions, and the
  portfolio table is a list of portfolio rows.
* The external quote source (`finnhubClient.getQuote`) is a parameter
  `quoteLookup : String → Option Quote`; `none` models a lookup that throws.
-/

namespace Stocks

/-- Transaction type enum (`TransactionTypeSchema = z.enum(['BUY', 'SELL'])`). -/
inductive TxType where
  | BUY
  | SELL
deriving DecidableEq, Repr

/-- A transaction record as used by `calculateHoldings`: the fields of the
Prisma `Transaction` row that the engine reads.  `transactionDate` is kept
implicitly: a ledger list is always the `transactionDate`-ascending order in
which `calculateHoldings` receives the rows. -/
structure Transaction where
  symbol : String
  type : TxType
  quantity : ℚ
  price : ℚ
  commission : ℚ
deriving DecidableEq, Repr

/-- Per-symbol accumulator of `calculateHoldings`:
`{ quantity: number; totalCost: number }`. -/
structure Acc where
  quantity : ℚ
  totalCost : ℚ
deriving DecidableEq, Repr

/-- A derived holding emitted by `calculateHoldings`. -/
structure Holding where
  symbol : String
  quantity : ℚ
  averageCost : ℚ
  totalCost : ℚ
deriving DecidableEq, Repr

/-- `holdings.get(tx.symbol) || { quantity: 0, totalCost: 0 }` on the
insertion-ordered map. -/
def accGet (m : List (String × Acc)) (s : String) : Acc :=
  match m with
  | [] => ⟨0, 0⟩
  | (k, a) :: rest => if k = s then a else accGet rest s

/-- `holdings.set(s, a)` on the insertion-ordered map: overwrite in place if
present, append otherwise (JavaScript `Map` semantics). -/
def accSet (m : List (String × Acc)) (s : String) (a : Acc) : List (String × Acc) :=
  match m with
  | [] => [(s, a)]
  | (k, b) :: rest => if k = s then (s, a) :: rest else (k, b) :: accSet rest s a

/-- One loop iteration of `calculateHoldings` (the `for (const tx of
transactions)` body in stocks.ts): BUY adds to the position, SELL reduces the
cost basis proportionally and subtracts the commission from the remaining
cost, clamped at zero.  The `avgCost` guard is `existing.quantity > 0`. -/
def holdingsStep (m : List (String × Acc)) (tx : Transaction) : List (String × Acc) :=
  let existing := accGet m tx.symbol
  match tx.type with
  | TxType.BUY =>
      accSet m tx.symbol
        ⟨existing.quantity + tx.quantity,
         existing.totalCost + tx.quantity * tx.price + tx.commission⟩
  | TxType.SELL =>
      let avgCost := if existing.quantity > 0 then existing.totalCost / existing.quantity else 0
      let newQuantity := existing.quantity - tx.quantity
      accSet m tx.symbol
        ⟨newQuantity, max 0 (avgCost * newQuantity - tx.commission)⟩

/-- The accumulator map after the whole scan of `calculateHoldings`. -/
def holdingsMap (txs : List Transaction) : List (String × Acc) :=
  txs.foldl holdingsStep []

/-- `calculateHoldings` (stocks.ts lines 228-268): scan the date-ordered
transactions, then keep only strictly positive positions and emit
`averageCost = totalCost / quantity`. -/
def calculateHoldings (txs : List Transaction) : List Holding :=
  ((holdingsMap txs).filter (fun e => e.2.quantity > 0)).map
    (fun e => ⟨e.1, e.2.quantity, e.2.totalCost / e.2.quantity, e.2.totalCost⟩)

/-- The holdings calculator exactly as the specification words it, for
comparison with `calculateHoldings`.  The only reading difference is the
SELL-side guard: the spec says `avgCost = totalCost / quantity` with `0` only
`if quantity is 0`, whereas the code tests `quantity > 0`. -/
def specStep (m : List (String × Acc)) (tx : Transaction) : List (String × Acc) :=
  let existing := accGet m tx.symbol
  match tx.type with
  | TxType.BUY =>
      accSet m tx.symbol
        ⟨existing.quantity + tx.quantity,
         existing.totalCost + tx.quantity * tx.price + tx.commission⟩
  | TxType.SELL =>
      let avgCost := if existing.quantity = 0 then 0 else existing.totalCost / existing.quantity
      let newQuantity := existing.quantity - tx.quantity
      accSet m tx.symbol
        ⟨newQuantity, max 0 (avgCost * newQuantity - tx.commission)⟩

/-- The spec-worded holdings calculator (see `specStep`). -/
def specCalculateHoldings (txs : List Transaction) : List Holding :=
  ((txs.foldl specStep []).filter (fun e => e.2.quantity > 0)).map
    (fun e => ⟨e.1, e.2.quantity, e.2.totalCost / e.2.quantity, e.2.totalCost⟩)

/-- The fields of a Finnhub quote the engine reads: `c` is the current price,
`pc` the previous close. -/
structure Quote where
  c : ℚ
  pc : ℚ
deriving DecidableEq, Repr

/-- The external quote source: `none` models a `getQuote` call that throws
(the `catch` branches of stocks.ts). -/
def QuoteLookup : Type := String → Option Quote

/-- JavaScript division on finite numbers: the quotient when the divisor is
nonzero, and a non-finite value (`Infinity`, `-Infinity` or `NaN`, all
modelled as `none`) when the divisor is `0`. -/
def jsDiv (a b : ℚ) : Option ℚ :=
  if b = 0 then none else some (a / b)

/-- The record built per holding by `enrichHoldingsWithPrices`.
`gainLossPercent` is the one field whose JavaScript computation can produce a
non-finite number, hence its `Option ℚ` type (`none` = non-finite). -/
structure EnrichedHolding where
  symbol : String
  quantity : ℚ
  averageCost : ℚ
  currentPrice : ℚ
  totalCost : ℚ
  currentValue : ℚ
  gainLoss : ℚ
  gainLossPercent : Option ℚ
  portfolioWeight : ℚ
deriving DecidableEq, Repr

/-- The `try` branch of `enrichHoldingsWithPrices` for one holding with a
successful quote. -/
def enrichSuccess (holding : Holding) (quote : Quote) (portfolioTotalValue : ℚ) :
    EnrichedHolding :=
  let currentPrice := quote.c
  let currentValue := currentPrice * holding.quantity
  let gainLoss := currentValue - holding.totalCost
  let gainLossPercent := (jsDiv gainLoss holding.totalCost).map (· * 100)
  let portfolioWeight :=
    if portfolioTotalValue > 0 then currentValue / portfolioTotalValue * 100 else 0
  ⟨holding.symbol, holding.quantity, holding.averageCost, currentPrice,
   holding.totalCost, currentValue, gainLoss, gainLossPercent, portfolioWeight⟩

/-- The `catch` branch of `enrichHoldingsWithPrices` for one holding whose
quote lookup failed: zero current price, worst-case loss. -/
def enrichFallback (holding : Holding) : EnrichedHolding :=
  ⟨holding.symbol, holding.quantity, holding.averageCost, 0,
   holding.totalCost, 0, -holding.totalCost, some (-100), 0⟩

/-- One holding's enrichment (the async closure inside
`enrichHoldingsWithPrices`). -/
def enrichHolding (lookup : QuoteLookup) (portfolioTotalValue : ℚ) (holding : Holding) :
    EnrichedHolding :=
  match lookup holding.symbol with
  | some quote => enrichSuccess holding quote portfolioTotalValue
  | none => enrichFallback holding

/-- `enrichHoldingsWithPrices` (stocks.ts lines 271-317): each holding is
enriched independently; a failed lookup degrades only that holding. -/
def enrichHoldingsWithPrices (holdings : List Holding) (lookup : QuoteLookup)
    (portfolioTotalValue : ℚ) : List EnrichedHolding :=
  holdings.map (enrichHolding lookup portfolioTotalValue)

/-- The total-value pre-pass of the `getHoldings` handler (stocks.ts lines
855-864): sum `quote.c * quantity` per holding, skipping holdings whose
lookup throws. -/
def getHoldingsTotalValue (holdings : List Holding) (lookup : QuoteLookup) : ℚ :=
  holdings.foldl
    (fun acc holding =>
      match lookup holding.symbol with
      | some quote => acc + quote.c * holding.quantity
      | none => acc)
    0

/-- The holdings list returned by the `getHoldings` handler for a portfolio
whose ledger is `txs`: compute holdings, pre-compute the portfolio total
value, then enrich. -/
def getHoldings (txs : List Transaction) (lookup : QuoteLookup) : List EnrichedHolding :=
  let holdings := calculateHoldings txs
  enrichHoldingsWithPrices holdings lookup (getHoldingsTotalValue holdings lookup)

/-- Aggregate portfolio metrics. -/
structure PortfolioMetrics where
  totalValue : ℚ
  totalCost : ℚ
  totalGainLoss : ℚ
  totalGainLossPercent : ℚ
  dayChange : ℚ
  dayChangePercent : ℚ
deriving DecidableEq, Repr

/-- The all-zero metrics of the empty-holdings early return. -/
def zeroMetrics : PortfolioMetrics := ⟨0, 0, 0, 0, 0, 0⟩

/-- `calculateMetrics` (stocks.ts lines 319-367), instrumented with the list
of symbols whose quotes it looked up: an empty holdings list returns all-zero
metrics before the quote loop runs; otherwise the loop queries each holding
once, a throwing lookup contributing only its cost basis. -/
def calculateMetrics (txs : List Transaction) (lookup : QuoteLookup) :
    PortfolioMetrics × List String :=
  let holdings := calculateHoldings txs
  if holdings = [] then
    (zeroMetrics, [])
  else
    let totals := holdings.foldl
      (fun acc holding =>
        let queried := acc.2 ++ [holding.symbol]
        match lookup holding.symbol with
        | some quote =>
            ((acc.1.1 + quote.c * holding.quantity,
              acc.1.2.1 + holding.totalCost,
              acc.1.2.2 + (quote.c - quote.pc) * holding.quantity), queried)
        | none =>
            ((acc.1.1, acc.1.2.1 + holding.totalCost, acc.1.2.2), queried))
      ((0, 0, 0), [])
    let totalValue := totals.1.1
    let totalCost := totals.1.2.1
    let totalDayChange := totals.1.2.2
    let totalGainLoss := totalValue - totalCost
    let totalGainLossPercent := if totalCost > 0 then totalGainLoss / totalCost * 100 else 0
    let previousTotalValue := totalValue - totalDayChange
    let dayChangePercent :=
      if previousTotalValue > 0 then totalDayChange / previousTotalValue * 100 else 0
    (⟨totalValue, totalCost, totalGainLoss, totalGainLossPercent,
      totalDayChange, dayChangePercent⟩, totals.2)

/-- The body of an add-transaction request (`AddTransactionSchema`): symbol,
type, `quantity > 0`, `price > 0`, `commission ≥ 0` (those bounds are imposed
by the schema, not re-checked by the handler). -/
structure AddTxBody where
  symbol : String
  type : TxType
  quantity : ℚ
  price : ℚ
  commission : ℚ
deriving DecidableEq, Repr

/-- Outcome of `addTransaction`: a created ledger row, or a 400 rejection
with the client-visible error message. -/
inductive AddTxOutcome where
  | created (tx : Transaction)
  | rejected (message : String)
deriving DecidableEq, Repr

/-- JavaScript's `toUpperCase()` on the ASCII symbols used here: uppercase
every character. -/
def toUpperString (s : String) : String := ⟨s.data.map Char.toUpper⟩

/-- The insufficient-shares message of `addTransaction`:
`Insufficient shares. You have X shares of SYMBOL` where `X` is
`holding?.quantity || 0` and `SYMBOL` is the request's raw symbol. -/
def insufficientSharesMessage (available : ℚ) (symbol : String) : String :=
  "Insufficient shares. You have " ++ toString available ++ " shares of " ++ symbol

/-- `addTransaction` (stocks.ts lines 638-720) restricted to its ledger
effect: for a SELL, recompute holdings from the existing ledger and reject
without inserting when no holding for the (uppercased) symbol exists or the
held quantity is below the requested one; otherwise append the new row (its
symbol uppercased) to the ledger. -/
def addTransaction (ledger : List Transaction) (body : AddTxBody) :
    AddTxOutcome × List Transaction :=
  let insert : AddTxOutcome × List Transaction :=
    let tx : Transaction :=
      ⟨toUpperString body.symbol, body.type, body.quantity, body.price, body.commission⟩
    (AddTxOutcome.created tx, ledger ++ [tx])
  match body.type with
  | TxType.SELL =>
      let holdings := calculateHoldings ledger
      match holdings.find? (fun h => h.symbol = toUpperString body.symbol) with
      | none =>
          (AddTxOutcome.rejected (insufficientSharesMessage 0 body.symbol), ledger)
      | some holding =>
          if holding.quantity < body.quantity then
            (AddTxOutcome.rejected
              (insufficientSharesMessage holding.quantity body.symbol), ledger)
          else insert
  | TxType.BUY => insert

/-- `deleteTransaction` (stocks.ts lines 779-827) restricted to its ledger
effect: the row (here addressed by its position) is removed unconditionally —
no SELL of the remaining ledger is re-validated. -/
def deleteTransaction (ledger : List Transaction) (i : ℕ) : List Transaction :=
  ledger.eraseIdx i

/-- A portfolio row: `createdAt` ordering is represented by the `id`, since
ids are assigned from the monotonically increasing `nextId` counter of
`PortfolioTable` (rows created later have larger ids). -/
structure Portfolio where
  id : ℕ
  userId : ℕ
  isDefault : Bool
deriving DecidableEq, Repr

/-- The portfolio table plus the id generator of the database. -/
structure PortfolioTable where
  nextId : ℕ
  rows : List Portfolio
deriving DecidableEq, Repr

/-- `prisma.portfolio.updateMany({ where: { userId, isDefault: true }, data:
{ isDefault: false } })`. -/
def unsetDefaults (u : ℕ) (rows : List Portfolio) : List Portfolio :=
  rows.map (fun p => if p.userId = u ∧ p.isDefault then { p with isDefault := false } else p)

/-- `createPortfolio` (stocks.ts lines 408-457): when the body asks for a
default portfolio, unset the user's other defaults first, then insert. -/
def createPortfolio (u : ℕ) (isDef : Bool) (s : PortfolioTable) : PortfolioTable :=
  let rows := if isDef then unsetDefaults u s.rows else s.rows
  ⟨s.nextId + 1, rows ++ [⟨s.nextId, u, isDef⟩]⟩

/-- `updatePortfolio` (stocks.ts lines 512-580): 404 (no change) when the
portfolio is not the user's; otherwise, when the body sets `isDefault` to
`true` (the only truthy case of `if (body.isDefault)`), unset the user's
other defaults, then write `isDefault = body.isDefault ?? old`. -/
def updatePortfolio (u pid : ℕ) (isDef : Option Bool) (s : PortfolioTable) :
    PortfolioTable :=
  match s.rows.find? (fun p => p.id = pid ∧ p.userId = u) with
  | none => s
  | some p =>
      let rows1 :=
        if isDef = some true then
          s.rows.map (fun q =>
            if q.userId = u ∧ q.isDefault ∧ q.id ≠ pid then { q with isDefault := false } else q)
        else s.rows
      ⟨s.nextId,
       rows1.map (fun q =>
         if q.id = pid then { q with isDefault := isDef.getD p.isDefault } else q)⟩

/-- `deletePortfolio` (stocks.ts lines 583-635): 404 (no change) when the
portfolio is not the user's; otherwise delete it, and if it was the default,
promote the user's earliest-created remaining portfolio (if any). -/
def deletePortfolio (u pid : ℕ) (s : PortfolioTable) : PortfolioTable :=
  match s.rows.find? (fun p => p.id = pid ∧ p.userId = u) with
  | none => s
  | some p =>
      let rows1 := s.rows.filter (fun q => q.id ≠ pid)
      if p.isDefault then
        match (rows1.filter (fun q => q.userId = u)).argmin Portfolio.id with
        | none => ⟨s.nextId, rows1⟩
        | some q =>
            ⟨s.nextId,
             rows1.map (fun r => if r.id = q.id then { r with isDefault := true } else r)⟩
      else ⟨s.nextId, rows1⟩

/-- A portfolio-mutating API call, carrying the authenticated user's id. -/
inductive PortfolioOp where
  | create (userId : ℕ) (isDefault : Bool)
  | update (userId pid : ℕ) (isDefault : Option Bool)
  | delete (userId pid : ℕ)
deriving DecidableEq, Repr

/-- Apply one portfolio operation to the table. -/
def applyOp (s : PortfolioTable) (op : PortfolioOp) : PortfolioTable :=
  match op with
  | PortfolioOp.create u d => createPortfolio u d s
  | PortfolioOp.update u pid d => updatePortfolio u pid d s
  | PortfolioOp.delete u pid => deletePortfolio u pid s

/-- Apply a sequence of portfolio operations left to right. -/
def applyOps (s : PortfolioTable) (ops : List PortfolioOp) : PortfolioTable :=
  ops.foldl applyOp s

/-- Database well-formedness: row ids are pairwise distinct and below the id
generator (true of the primary-keyed table). -/
def TableWF (s : PortfolioTable) : Prop :=
  (s.rows.map Portfolio.id).Nodup ∧ ∀ p ∈ s.rows, p.id < s.nextId

/-- At most one of user `u`'s portfolios is marked default. -/
def atMostOneDefault (u : ℕ) (s : PortfolioTable) : Prop :=
  s.rows.countP (fun p => decide (p.userId = u ∧ p.isDefault)) ≤ 1

/-- The holdings calculator as claim C1 words it, with the SELL guard amended
to the code's actual test: `avgCost = totalCost / quantity` when
`quantity > 0`, and `0` otherwise (not merely when quantity is `0`). -/
def specStepAmended (m : List (String × Acc)) (tx : Transaction) : List (String × Acc) :=
  let existing := accGet m tx.symbol
  match tx.type with
  | TxType.BUY =>
      accSet m tx.symbol
        ⟨existing.quantity + tx.quantity,
         existing.totalCost + tx.quantity * tx.price + tx.commission⟩
  | TxType.SELL =>
      let avgCost := if existing.quantity > 0 then existing.totalCost / existing.quantity else 0
      let newQuantity := existing.quantity - tx.quantity
      accSet m tx.symbol
        ⟨newQuantity, max 0 (avgCost * newQuantity - tx.commission)⟩

/-- The amended-claim holdings calculator (see `specStepAmended`). -/
def specCalculateHoldingsAmended (txs : List Transaction) : List Holding :=
  ((txs.foldl specStepAmended []).filter (fun e => e.2.quantity > 0)).map
    (fun e => ⟨e.1, e.2.quantity, e.2.totalCost / e.2.quantity, e.2.totalCost⟩)

/-- A ledger on which the claimed SELL rule (`avgCost = totalCost/quantity`
unless quantity is exactly `0`) departs from the code (whose guard is
`quantity > 0`): the fourth transaction sells at accumulator state
`(quantity, totalCost) = (-1, 10)`. -/
def c1txs : List Transaction :=
  [⟨"A", TxType.BUY, 1, 10, 0⟩, ⟨"A", TxType.SELL, 3, 0, 0⟩,
   ⟨"A", TxType.BUY, 1, 10, 0⟩, ⟨"A", TxType.SELL, 1, 0, 0⟩,
   ⟨"A", TxType.BUY, 4, 1, 0⟩]

end Stocks

namespace Stocks

/-- Claim C1, counterexample: on the concrete ledger `c1txs` the code's
`calculateHoldings` and the claim's literal accumulator rule (avgCost zeroed
only when quantity is exactly `0`) emit different holdings — the code returns
averageCost `2`, the claimed rule would return `12`. -/
theorem calculateHoldings_ne_claimed_rule :
    calculateHoldings c1txs = [⟨"A", 2, 2, 4⟩] ∧
    specCalculateHoldings c1txs = [⟨"A", 2, 12, 24⟩] ∧
    calculateHoldings c1txs ≠ specCalculateHoldings c1txs := by
  refine ⟨?_, ?_, ?_⟩ <;>
    norm_num [calculateHoldings, specCalculateHoldings, holdingsMap, holdingsStep, specStep,
      accGet, accSet, c1txs]

/-- Claim C1, amended: `calculateHoldings` follows exactly the claimed
per-symbol accumulator rule once the SELL-side zero case reads `avgCost = 0`
whenever `quantity ≤ 0` (the code's guard is `quantity > 0`), everything else
as claimed: BUY adds `tx.quantity` and `tx.quantity * tx.price +
tx.commission`, SELL clamps `avgCost * newQuantity - tx.commission` at `0`,
and a Holding is emitted iff the final quantity is positive, with
`averageCost = totalCost / quantity`. -/
theorem calculateHoldings_eq_spec_amended :
    ∀ txs : List Transaction, calculateHoldings txs = specCalculateHoldingsAmended txs := by
  intro txs
  rfl

/-- A ledger producing a holding with positive quantity and zero cost basis
via the `max(0, ...)` clamp: BUY 2 @ 10, then SELL 1 with commission 20. -/
def c4txs : List Transaction :=
  [⟨"A", TxType.BUY, 2, 10, 0⟩, ⟨"A", TxType.SELL, 1, 0, 20⟩]

/-- A quote lookup that succeeds on every symbol. -/
def c4lookup : QuoteLookup := fun _ => some ⟨10, 10⟩

/-- Claim C4, counterexample: `enrichHoldingsWithPrices` computes
`gainLossPercent` with no guard on `totalCost = 0`.  On the clamp-produced
holding `⟨A, 1, 0, 0⟩` (reached from the concrete ledger `c4txs`) with a
succeeding quote, the division by the zero cost basis is evaluated and the
result is non-finite (`none`), so the claimed guard does not exist. -/
theorem gainLossPercent_unguarded_counterexample :
    calculateHoldings c4txs = [⟨"A", 1, 0, 0⟩] ∧
    c4lookup "A" = some ⟨10, 10⟩ ∧
    (enrichHoldingsWithPrices (calculateHoldings c4txs) c4lookup 10).map
      EnrichedHolding.gainLossPercent = [none] := by
  refine ⟨?_, rfl, ?_⟩ <;>
    norm_num [calculateHoldings, holdingsMap, holdingsStep, accGet, accSet, c4txs,
      enrichHoldingsWithPrices, enrichHolding, enrichSuccess, c4lookup, jsDiv]

/-- Claim C4, amended: `gainLossPercent` is computed unconditionally, with no
guard for `totalCost = 0`; for every holding with `totalCost = 0` (producible
by `calculateHoldings` via the clamp, see the counterexample) whose quote
lookup succeeds, the division by zero is evaluated and yields a non-finite
JavaScript number (modelled as `none`). -/
theorem gainLossPercent_none_of_totalCost_zero
    (holding : Holding) (lookup : QuoteLookup) (tv : ℚ) (q : Quote)
    (hq : lookup holding.symbol = some q) (hc : holding.totalCost = 0) :
    (enrichHolding lookup tv holding).gainLossPercent = none := by
  simp [enrichHolding, hq, enrichSuccess, jsDiv, hc]

/-- Witness for `gainLossPercent_none_of_totalCost_zero` at the clamp-produced
holding of the counterexample ledger. -/
theorem gainLossPercent_none_witness :
    (enrichHolding c4lookup 10 ⟨"A", 1, 0, 0⟩).gainLossPercent = none :=
  gainLossPercent_none_of_totalCost_zero ⟨"A", 1, 0, 0⟩ c4lookup 10 ⟨10, 10⟩ rfl rfl

/-- Claim C6: when the computed holdings list is empty, `calculateMetrics`
returns all-zero metrics and performs no quote lookups at all (its queried
symbol trace is empty). -/
theorem calculateMetrics_empty_holdings
    (txs : List Transaction) (lookup : QuoteLookup)
    (h : calculateHoldings txs = []) :
    calculateMetrics txs lookup = (zeroMetrics, []) := by
  simp [calculateMetrics, h]

/-- Witness for `calculateMetrics_empty_holdings` at the empty ledger. -/
theorem calculateMetrics_empty_holdings_witness :
    calculateHoldings ([] : List Transaction) = [] ∧
    calculateMetrics ([] : List Transaction) (fun _ => none) = (zeroMetrics, []) :=
  ⟨rfl, calculateMetrics_empty_holdings [] (fun _ => none) rfl⟩

/-- Claim C5: in `enrichHoldingsWithPrices`, a holding whose quote lookup
fails is emitted exactly as `currentPrice = 0`, `currentValue = 0`,
`gainLoss = -totalCost`, `gainLossPercent = -100`, `portfolioWeight = 0`,
with symbol, quantity, averageCost and totalCost unchanged; and every holding
of a different symbol is enriched identically under any quote source that
differs only at the failing symbol — the enrichment never aborts on a
single-symbol failure. -/
theorem enrichHoldings_single_failure
    (hs : List Holding) (lookup lookup' : QuoteLookup) (tv : ℚ) (s : String)
    (hfail : lookup s = none)
    (hagree : ∀ s', s' ≠ s → lookup s' = lookup' s') :
    ∀ (i : ℕ) (a : Holding), hs[i]? = some a →
      (a.symbol = s →
        (enrichHoldingsWithPrices hs lookup tv)[i]? =
          some ⟨a.symbol, a.quantity, a.averageCost, 0, a.totalCost, 0,
                -a.totalCost, some (-100), 0⟩) ∧
      (a.symbol ≠ s →
        (enrichHoldingsWithPrices hs lookup tv)[i]? =
          (enrichHoldingsWithPrices hs lookup' tv)[i]?) := by
  intro i a ha
  constructor
  · intro hsym
    simp [enrichHoldingsWithPrices, List.getElem?_map, ha, enrichHolding, hsym, hfail,
      enrichFallback]
  · intro hsym
    have hsame : lookup a.symbol = lookup' a.symbol := hagree a.symbol hsym
    simp [enrichHoldingsWithPrices, List.getElem?_map, ha, enrichHolding, hsame]

/-- Two holdings for the C5 witness. -/
def c5holdings : List Holding := [⟨"A", 1, 10, 10⟩, ⟨"B", 2, 5, 10⟩]

/-- A quote source failing exactly at symbol B. -/
def c5lookup : QuoteLookup := fun s => if s = "A" then some ⟨20, 20⟩ else none

/-- The same quote source with the B failure replaced by a success. -/
def c5lookup2 : QuoteLookup := fun s => if s = "B" then some ⟨7, 7⟩ else c5lookup s

/-- Witness for `enrichHoldings_single_failure`: with symbol B failing, the
B holding degrades to the exact fallback record and the A holding's output
is the same as under the lookup where B succeeds. -/
theorem enrichHoldings_single_failure_witness :
    c5lookup "B" = none ∧
    (enrichHoldingsWithPrices c5holdings c5lookup 20)[1]? =
      some ⟨"B", 2, 5, 0, 10, 0, -10, some (-100), 0⟩ ∧
    (enrichHoldingsWithPrices c5holdings c5lookup 20)[0]? =
      (enrichHoldingsWithPrices c5holdings c5lookup2 20)[0]? := by
  have hagree : ∀ s', s' ≠ "B" → c5lookup s' = c5lookup2 s' := by
    intro s' hne
    simp [c5lookup2, hne]
  refine ⟨rfl, ?_, ?_⟩
  · exact (enrichHoldings_single_failure c5holdings c5lookup c5lookup2 20 "B" rfl hagree
      1 ⟨"B", 2, 5, 10⟩ rfl).1 rfl
  · exact (enrichHoldings_single_failure c5holdings c5lookup c5lookup2 20 "B" rfl hagree
      0 ⟨"A", 1, 10, 10⟩ rfl).2 (by simp)

/-- Scanning an all-BUY single-symbol suffix from a singleton accumulator map
adds the total bought quantity and the total spent amount (price times
quantity plus commission) to that symbol's accumulator. -/
theorem buy_fold_single (s : String) :
    ∀ txs : List Transaction, (∀ tx ∈ txs, tx.symbol = s ∧ tx.type = TxType.BUY) →
    ∀ a : Acc, txs.foldl holdingsStep [(s, a)] =
      [(s, ⟨a.quantity + (txs.map Transaction.quantity).sum,
            a.totalCost + (txs.map (fun tx => tx.quantity * tx.price + tx.commission)).sum⟩)] := by
  intro txs
  induction txs with
  | nil => intro _ a; simp
  | cons t rest ih =>
      intro hall a
      obtain ⟨hsym, htype⟩ := hall t (by simp)
      have hrest : ∀ tx ∈ rest, tx.symbol = s ∧ tx.type = TxType.BUY := by
        intro tx hm; exact hall tx (by simp [hm])
      have hstep : holdingsStep [(s, a)] t =
          [(s, ⟨a.quantity + t.quantity, a.totalCost + t.quantity * t.price + t.commission⟩)] := by
        simp [holdingsStep, accGet, accSet, hsym, htype]
      rw [List.foldl_cons, hstep, ih hrest]
      simp only [List.map_cons, List.sum_cons, List.cons.injEq, Prod.mk.injEq, Acc.mk.injEq,
        and_true, true_and]
      constructor <;> ring

/-- Claim C2: for a non-empty all-BUY ledger in one symbol (quantities and
prices positive, commissions nonnegative), `calculateHoldings` emits exactly
one holding whose averageCost is the quantity-weighted mean of purchase
prices plus amortized commission: the sum of `quantity * price + commission`
divided by the sum of quantities. -/
theorem averageCost_weighted_mean
    (s : String) (txs : List Transaction) (hne : txs ≠ [])
    (hall : ∀ tx ∈ txs, tx.symbol = s ∧ tx.type = TxType.BUY ∧
            0 < tx.quantity ∧ 0 < tx.price ∧ 0 ≤ tx.commission) :
    calculateHoldings txs =
      [⟨s, (txs.map Transaction.quantity).sum,
        (txs.map (fun tx => tx.quantity * tx.price + tx.commission)).sum /
          (txs.map Transaction.quantity).sum,
        (txs.map (fun tx => tx.quantity * tx.price + tx.commission)).sum⟩] := by
  match txs, hne with
  | t :: rest, _ =>
    obtain ⟨hsym, htype, hq, _, _⟩ := hall t (by simp)
    have hrest : ∀ tx ∈ rest, tx.symbol = s ∧ tx.type = TxType.BUY := by
      intro tx hm; exact ⟨(hall tx (by simp [hm])).1, (hall tx (by simp [hm])).2.1⟩
    have hstep : holdingsStep [] t =
        [(s, ⟨t.quantity, t.quantity * t.price + t.commission⟩)] := by
      simp [holdingsStep, accGet, accSet, hsym, htype]
    have hsum0 : 0 ≤ (rest.map Transaction.quantity).sum := by
      refine List.sum_nonneg ?_
      intro x hx
      obtain ⟨tx, hm, rfl⟩ := List.mem_map.mp hx
      exact le_of_lt (hall tx (by simp [hm])).2.2.1
    have hpos : 0 < t.quantity + (rest.map Transaction.quantity).sum := by linarith
    unfold calculateHoldings holdingsMap
    rw [List.foldl_cons, hstep, buy_fold_single s rest hrest]
    simp [List.filter_cons, hpos, add_assoc]

/-- A two-BUY ledger for the C2 witness: 1 @ 10 (commission 0) and 3 @ 20
(commission 4). -/
def c2txs : List Transaction :=
  [⟨"A", TxType.BUY, 1, 10, 0⟩, ⟨"A", TxType.BUY, 3, 20, 4⟩]

/-- Witness for `averageCost_weighted_mean`: total quantity 4, total spend
10 + 60 + 4 = 74, average cost 74 / 4 = 37 / 2. -/
theorem averageCost_weighted_mean_witness :
    calculateHoldings c2txs = [⟨"A", 4, 37 / 2, 74⟩] := by
  have hall : ∀ tx ∈ c2txs, tx.symbol = "A" ∧ tx.type = TxType.BUY ∧
      0 < tx.quantity ∧ 0 < tx.price ∧ 0 ≤ tx.commission := by
    intro tx hm
    simp [c2txs] at hm
    rcases hm with rfl | rfl <;> refine ⟨rfl, rfl, by norm_num, by norm_num, by norm_num⟩
  rw [averageCost_weighted_mean "A" c2txs (by simp [c2txs]) hall]
  norm_num [c2txs]

/-- A transaction of the shape admitted by `AddTransactionSchema`:
`quantity > 0`, `price > 0`, `commission ≥ 0`. -/
def SchemaOK (tx : Transaction) : Prop :=
  0 < tx.quantity ∧ 0 < tx.price ∧ 0 ≤ tx.commission

/-- The accumulator returned by `accGet` has nonnegative cost basis whenever
every entry of the map has. -/
theorem accGet_totalCost_nonneg (m : List (String × Acc)) (s : String)
    (h : ∀ e ∈ m, 0 ≤ e.2.totalCost) : 0 ≤ (accGet m s).totalCost := by
  induction m with
  | nil => simp [accGet]
  | cons e rest ih =>
      obtain ⟨k, a⟩ := e
      by_cases hk : k = s
      · simpa [accGet, hk] using h (k, a) (by simp)
      · simpa [accGet, hk] using ih (fun e he => h e (by simp [he]))

/-- Every entry of `accSet m s a` is an entry of `m` or the written pair. -/
theorem mem_accSet (m : List (String × Acc)) (s : String) (a : Acc) :
    ∀ e ∈ accSet m s a, e ∈ m ∨ e = (s, a) := by
  induction m with
  | nil => intro e he; simp [accSet] at he; simp [he]
  | cons hd rest ih =>
      obtain ⟨k, b⟩ := hd
      intro e he
      by_cases hk : k = s
      · simp [accSet, hk] at he
        rcases he with rfl | he
        · simp
        · simp [he]
      · simp [accSet, hk] at he
        rcases he with rfl | he
        · simp
        · rcases ih e he with h1 | h1
          · simp [h1]
          · simp [h1]

/-- One `calculateHoldings` loop iteration on a schema-valid transaction
keeps every accumulator's cost basis nonnegative. -/
theorem holdingsStep_totalCost_nonneg (m : List (String × Acc)) (tx : Transaction)
    (hmap : ∀ e ∈ m, 0 ≤ e.2.totalCost) (hok : SchemaOK tx) :
    ∀ e ∈ holdingsStep m tx, 0 ≤ e.2.totalCost := by
  obtain ⟨hq, hp, hc⟩ := hok
  intro e he
  cases htype : tx.type with
  | BUY =>
      simp only [holdingsStep, htype] at he
      rcases mem_accSet m tx.symbol _ e he with h1 | h1
      · exact hmap e h1
      · have h0 : 0 ≤ (accGet m tx.symbol).totalCost := accGet_totalCost_nonneg m _ hmap
        have hqp : 0 < tx.quantity * tx.price := mul_pos hq hp
        rw [h1]
        simp only
        linarith
  | SELL =>
      simp only [holdingsStep, htype] at he
      rcases mem_accSet m tx.symbol _ e he with h1 | h1
      · exact hmap e h1
      · rw [h1]
        exact le_max_left 0 _

/-- Scanning any schema-valid transaction list preserves nonnegativity of
every accumulator's cost basis. -/
theorem foldl_totalCost_nonneg :
    ∀ txs : List Transaction, (∀ tx ∈ txs, SchemaOK tx) →
    ∀ m : List (String × Acc), (∀ e ∈ m, 0 ≤ e.2.totalCost) →
    ∀ e ∈ txs.foldl holdingsStep m, 0 ≤ e.2.totalCost := by
  intro txs
  induction txs with
  | nil => intro _ m hm; simpa using hm
  | cons t rest ih =>
      intro hok m hm
      rw [List.foldl_cons]
      exact ih (fun tx htx => hok tx (by simp [htx]))
        (holdingsStep m t) (holdingsStep_totalCost_nonneg m t hm (hok t (by simp)))

/-- Claim C10: on any ledger whose transactions satisfy the
`AddTransactionSchema` bounds, every per-symbol accumulator has nonnegative
`totalCost` after each processed transaction (every prefix of the scan), and
every emitted holding has nonnegative `totalCost` and `averageCost`. -/
theorem totalCost_nonneg_invariant
    (txs : List Transaction) (hok : ∀ tx ∈ txs, SchemaOK tx) :
    (∀ n : ℕ, ∀ e ∈ holdingsMap (txs.take n), 0 ≤ e.2.totalCost) ∧
    (∀ h ∈ calculateHoldings txs, 0 ≤ h.totalCost ∧ 0 ≤ h.averageCost) := by
  constructor
  · intro n
    exact foldl_totalCost_nonneg (txs.take n)
      (fun tx htx => hok tx (List.take_subset n txs htx)) [] (by simp)
  · intro h hm
    simp only [calculateHoldings, List.mem_map, List.mem_filter] at hm
    obtain ⟨e, ⟨hmem, hqpos⟩, rfl⟩ := hm
    have htc : 0 ≤ e.2.totalCost := foldl_totalCost_nonneg txs hok [] (by simp) e hmem
    have hq : 0 < e.2.quantity := by simpa using hqpos
    exact ⟨htc, div_nonneg htc (le_of_lt hq)⟩

/-- A schema-valid ledger for the C10 witness. -/
def c10txs : List Transaction :=
  [⟨"A", TxType.BUY, 2, 10, 1⟩, ⟨"A", TxType.SELL, 1, 12, 3⟩]

/-- Witness for `totalCost_nonneg_invariant` on the concrete ledger
`c10txs`, instantiated at its single emitted holding `⟨A, 1, 15/2, 15/2⟩`
and at the accumulator entry after both transactions. -/
theorem totalCost_nonneg_invariant_witness :
    (Holding.mk "A" 1 (15 / 2) (15 / 2)) ∈ calculateHoldings c10txs ∧
    0 ≤ (Holding.mk "A" 1 (15 / 2) (15 / 2)).totalCost ∧
    0 ≤ (Holding.mk "A" 1 (15 / 2) (15 / 2)).averageCost ∧
    ("A", Acc.mk 1 (15 / 2)) ∈ holdingsMap (c10txs.take 2) ∧
    0 ≤ (Acc.mk 1 (15 / 2)).totalCost := by
  have hok : ∀ tx ∈ c10txs, SchemaOK tx := by
    intro tx hm
    simp [c10txs] at hm
    rcases hm with rfl | rfl <;> exact ⟨by norm_num, by norm_num, by norm_num⟩
  have hmem : (Holding.mk "A" 1 (15 / 2) (15 / 2)) ∈ calculateHoldings c10txs := by
    norm_num [calculateHoldings, holdingsMap, holdingsStep, accGet, accSet, c10txs]
  have hmem2 : ("A", Acc.mk 1 (15 / 2)) ∈ holdingsMap (c10txs.take 2) := by
    norm_num [holdingsMap, holdingsStep, accGet, accSet, c10txs]
  exact ⟨hmem, ((totalCost_nonneg_invariant c10txs hok).2 _ hmem).1,
    ((totalCost_nonneg_invariant c10txs hok).2 _ hmem).2,
    hmem2, (totalCost_nonneg_invariant c10txs hok).1 2 _ hmem2⟩

/-- The final computed quantity of a symbol: its accumulator's quantity after
the whole `calculateHoldings` scan (`⟨0, 0⟩` if the symbol never traded). -/
def finalQuantity (txs : List Transaction) (s : String) : ℚ :=
  (accGet (holdingsMap txs) s).quantity

/-- `accGet` returns an entry of the map, or the zero default. -/
theorem accGet_mem_or_default (m : List (String × Acc)) (s : String) :
    (s, accGet m s) ∈ m ∨ accGet m s = ⟨0, 0⟩ := by
  induction m with
  | nil => right; rfl
  | cons hd rest ih =>
      obtain ⟨k, a⟩ := hd
      by_cases hk : k = s
      · left
        simp [accGet, hk]
      · rcases ih with h | h
        · left
          simp only [accGet, if_neg hk]
          exact List.mem_cons_of_mem _ h
        · right
          simpa [accGet, hk] using h

/-- Keys appearing after an `accSet` were present before or are the written
key. -/
theorem mem_keys_accSet (m : List (String × Acc)) (s : String) (a : Acc) :
    ∀ x ∈ (accSet m s a).map Prod.fst, x ∈ m.map Prod.fst ∨ x = s := by
  induction m with
  | nil => intro x hx; simp [accSet] at hx; simp [hx]
  | cons hd rest ih =>
      obtain ⟨k, b⟩ := hd
      intro x hx
      by_cases hk : k = s
      · simp [accSet, hk] at hx
        rcases hx with rfl | hx
        · simp
        · simp [hx]
      · simp only [accSet, if_neg hk, List.map_cons, List.mem_cons] at hx
        rcases hx with rfl | hx
        · simp
        · rcases ih x hx with h1 | h1
          · exact Or.inl (by simp [h1])
          · exact Or.inr h1

/-- `accSet` preserves distinctness of the map's keys. -/
theorem keys_accSet_nodup (m : List (String × Acc)) (s : String) (a : Acc)
    (h : (m.map Prod.fst).Nodup) : ((accSet m s a).map Prod.fst).Nodup := by
  induction m with
  | nil => simp [accSet]
  | cons hd rest ih =>
      obtain ⟨k, b⟩ := hd
      simp only [List.map_cons, List.nodup_cons] at h
      by_cases hk : k = s
      · subst hk
        simpa [accSet] using h
      · simp only [accSet, if_neg hk, List.map_cons, List.nodup_cons]
        refine ⟨?_, ih h.2⟩
        intro hmem
        rcases mem_keys_accSet rest s a k hmem with h1 | h1
        · exact h.1 h1
        · exact hk h1

/-- The accumulator map of `calculateHoldings` has pairwise distinct keys. -/
theorem holdingsMap_keys_nodup (txs : List Transaction) :
    ((holdingsMap txs).map Prod.fst).Nodup := by
  suffices hgen : ∀ (txs : List Transaction) (m : List (String × Acc)),
      (m.map Prod.fst).Nodup → ((txs.foldl holdingsStep m).map Prod.fst).Nodup by
    exact hgen txs [] (by simp)
  intro txs
  induction txs with
  | nil => intro m hm; simpa using hm
  | cons t rest ih =>
      intro m hm
      rw [List.foldl_cons]
      refine ih (holdingsStep m t) ?_
      cases htype : t.type <;> simp only [holdingsStep, htype] <;>
        exact keys_accSet_nodup m t.symbol _ hm

/-- On a map with distinct keys, `accGet` returns the entry stored at the
key. -/
theorem accGet_eq_of_mem (m : List (String × Acc)) (s : String) (a : Acc)
    (hnd : (m.map Prod.fst).Nodup) (hm : (s, a) ∈ m) : accGet m s = a := by
  induction m with
  | nil => simp at hm
  | cons hd rest ih =>
      obtain ⟨k, b⟩ := hd
      simp only [List.map_cons, List.nodup_cons] at hnd
      rcases List.mem_cons.mp hm with heq | htail
      · have hk : s = k := congrArg Prod.fst heq
        have hb : a = b := congrArg Prod.snd heq
        simp [accGet, ← hk, ← hb]
      · have hks : k ≠ s := by
          intro hk
          exact hnd.1 (hk ▸ List.mem_map.mpr ⟨(s, a), htail, rfl⟩)
        simpa [accGet, hks] using ih hnd.2 htail

/-- Claim C9: `calculateHoldings` is a total function that signals no error:
on every ledger — including ledgers where a SELL overdraws the position,
which are reachable through the public interface because `deleteTransaction`
removes a row without re-validating later SELLs — every emitted holding has
positive quantity, and a symbol is emitted exactly when its final computed
quantity is positive, so zero or negative positions are silently omitted.
Concretely: deleting the BUY from the accepted ledger BUY 5 / SELL 5 leaves
a lone overdrawing SELL, on which the calculator still returns a plain
(empty) holdings list with final quantity -5. -/
theorem calculateHoldings_total_silent_omission :
    (∀ txs : List Transaction, ∀ h ∈ calculateHoldings txs, 0 < h.quantity) ∧
    (∀ (txs : List Transaction) (s : String),
      (∃ h ∈ calculateHoldings txs, h.symbol = s) ↔ 0 < finalQuantity txs s) ∧
    ((addTransaction [] ⟨"A", TxType.BUY, 5, 20, 0⟩).2 =
        [⟨"A", TxType.BUY, 5, 20, 0⟩] ∧
     (addTransaction [⟨"A", TxType.BUY, 5, 20, 0⟩] ⟨"A", TxType.SELL, 5, 30, 0⟩).2 =
        [⟨"A", TxType.BUY, 5, 20, 0⟩, ⟨"A", TxType.SELL, 5, 30, 0⟩] ∧
     deleteTransaction [⟨"A", TxType.BUY, 5, 20, 0⟩, ⟨"A", TxType.SELL, 5, 30, 0⟩] 0 =
        [⟨"A", TxType.SELL, 5, 30, 0⟩] ∧
     calculateHoldings [⟨"A", TxType.SELL, 5, 30, 0⟩] = [] ∧
     finalQuantity [⟨"A", TxType.SELL, 5, 30, 0⟩] "A" = -5) := by
  refine ⟨?_, ?_, ?_, ?_, ?_, ?_, ?_⟩
  · intro txs h hm
    simp only [calculateHoldings, List.mem_map, List.mem_filter] at hm
    obtain ⟨e, ⟨_, hqpos⟩, rfl⟩ := hm
    simpa using hqpos
  · intro txs s
    constructor
    · rintro ⟨h, hm, hsym⟩
      simp only [calculateHoldings, List.mem_map, List.mem_filter] at hm
      obtain ⟨e, ⟨hmem, hqpos⟩, rfl⟩ := hm
      have hs : e.1 = s := hsym
      have hget : accGet (holdingsMap txs) s = e.2 :=
        accGet_eq_of_mem _ s e.2 (holdingsMap_keys_nodup txs) (by
          rw [← hs]
          simpa using hmem)
      unfold finalQuantity
      rw [hget]
      simpa using hqpos
    · intro hq
      rcases accGet_mem_or_default (holdingsMap txs) s with hmem | hdef
      · refine ⟨⟨s, (accGet (holdingsMap txs) s).quantity,
          (accGet (holdingsMap txs) s).totalCost / (accGet (holdingsMap txs) s).quantity,
          (accGet (holdingsMap txs) s).totalCost⟩, ?_, rfl⟩
        simp only [calculateHoldings, List.mem_map, List.mem_filter]
        exact ⟨(s, accGet (holdingsMap txs) s), ⟨hmem, by simpa using hq⟩, rfl⟩
      · exfalso
        unfold finalQuantity at hq
        rw [hdef] at hq
        exact absurd hq (by norm_num)
  · have hupper : toUpperString "A" = "A" := by decide
    norm_num [addTransaction, hupper]
  · have hupper : toUpperString "A" = "A" := by decide
    norm_num [addTransaction, hupper, calculateHoldings, holdingsMap, holdingsStep,
      accGet, accSet, List.find?]
  · rfl
  · norm_num [calculateHoldings, holdingsMap, holdingsStep, accGet, accSet]
  · norm_num [finalQuantity, holdingsMap, holdingsStep, accGet, accSet]

/-- Witness for `calculateHoldings_total_silent_omission` at the singleton
BUY ledger: the emitted holding `⟨A, 5, 20, 100⟩` has positive quantity, and
symbol A's final quantity is positive. -/
theorem calculateHoldings_total_silent_omission_witness :
    (Holding.mk "A" 5 20 100) ∈ calculateHoldings [⟨"A", TxType.BUY, 5, 20, 0⟩] ∧
    0 < (Holding.mk "A" 5 20 100).quantity ∧
    0 < finalQuantity [⟨"A", TxType.BUY, 5, 20, 0⟩] "A" := by
  have hmem : (Holding.mk "A" 5 20 100) ∈ calculateHoldings [⟨"A", TxType.BUY, 5, 20, 0⟩] := by
    norm_num [calculateHoldings, holdingsMap, holdingsStep, accGet, accSet]
  exact ⟨hmem, calculateHoldings_total_silent_omission.1 _ _ hmem,
    (calculateHoldings_total_silent_omission.2.1 _ "A").mp ⟨_, hmem, rfl⟩⟩

/-- The `getHoldings` total-value pre-pass equals the sum over holdings of
`quote.c * quantity`, a failed lookup contributing `0`. -/
theorem getHoldingsTotalValue_eq_sum (hs : List Holding) (lookup : QuoteLookup) :
    getHoldingsTotalValue hs lookup =
      (hs.map (fun h => match lookup h.symbol with
        | some q => q.c * h.quantity
        | none => 0)).sum := by
  suffices hgen : ∀ (l : List Holding) (x : ℚ),
      l.foldl (fun acc holding => match lookup holding.symbol with
        | some quote => acc + quote.c * holding.quantity
        | none => acc) x =
      x + (l.map (fun h => match lookup h.symbol with
        | some q => q.c * h.quantity
        | none => 0)).sum by
    simpa [getHoldingsTotalValue] using hgen hs 0
  intro l
  induction l with
  | nil => intro x; simp
  | cons hd tl ih =>
      intro x
      cases hlu : lookup hd.symbol
      · simp [hlu, ih]
      · simp [hlu, ih]
        ring

/-- Summing `f h / T * 100` over a list factors through the sum of `f`. -/
theorem sum_map_div_mul_hundred (l : List Holding) (f : Holding → ℚ) (T : ℚ) :
    (l.map (fun h => f h / T * 100)).sum = (l.map f).sum / T * 100 := by
  induction l with
  | nil => simp
  | cons hd tl ih =>
      simp only [List.map_cons, List.sum_cons, ih]
      ring

/-- Claim C7: when every quote lookup of a portfolio succeeds (the lookup
function being fixed, hence deterministic, within the request), the
`portfolioWeight` values over the holdings returned by `getHoldings` sum to
exactly `100` whenever the portfolio total value is positive, and sum to `0`
when the holdings list is empty. -/
theorem portfolioWeight_sum (txs : List Transaction) (lookup : QuoteLookup)
    (hsucc : ∀ h ∈ calculateHoldings txs, (lookup h.symbol).isSome) :
    (0 < getHoldingsTotalValue (calculateHoldings txs) lookup →
      ((getHoldings txs lookup).map EnrichedHolding.portfolioWeight).sum = 100) ∧
    (calculateHoldings txs = [] →
      ((getHoldings txs lookup).map EnrichedHolding.portfolioWeight).sum = 0) := by
  constructor
  · intro hT
    have hmap : (getHoldings txs lookup).map EnrichedHolding.portfolioWeight =
        (calculateHoldings txs).map (fun h => (match lookup h.symbol with
          | some q => q.c * h.quantity
          | none => 0) / getHoldingsTotalValue (calculateHoldings txs) lookup * 100) := by
      unfold getHoldings enrichHoldingsWithPrices
      rw [List.map_map]
      refine List.map_congr_left ?_
      intro h hm
      obtain ⟨q, hq⟩ := Option.isSome_iff_exists.mp (hsucc h hm)
      simp [Function.comp, enrichHolding, hq, enrichSuccess, if_pos hT]
    rw [hmap, sum_map_div_mul_hundred, ← getHoldingsTotalValue_eq_sum,
      div_self (ne_of_gt hT)]
    norm_num
  · intro hempty
    simp [getHoldings, hempty, enrichHoldingsWithPrices]

/-- A one-BUY ledger for the C7 witness. -/
def c7txs : List Transaction := [⟨"A", TxType.BUY, 2, 5, 0⟩]

/-- An always-succeeding quote source for the C7 witness. -/
def c7lookup : QuoteLookup := fun _ => some ⟨10, 10⟩

/-- Witness for `portfolioWeight_sum`: total value `20 > 0` and the single
weight sums to `100`; the empty ledger sums to `0`. -/
theorem portfolioWeight_sum_witness :
    0 < getHoldingsTotalValue (calculateHoldings c7txs) c7lookup ∧
    ((getHoldings c7txs c7lookup).map EnrichedHolding.portfolioWeight).sum = 100 ∧
    ((getHoldings ([] : List Transaction) c7lookup).map
      EnrichedHolding.portfolioWeight).sum = 0 := by
  have hsucc : ∀ h ∈ calculateHoldings c7txs, (c7lookup h.symbol).isSome := by
    intro h _
    rfl
  have hT : 0 < getHoldingsTotalValue (calculateHoldings c7txs) c7lookup := by
    norm_num [getHoldingsTotalValue, calculateHoldings, holdingsMap, holdingsStep,
      accGet, accSet, c7txs, c7lookup]
  have hsucc2 : ∀ h ∈ calculateHoldings ([] : List Transaction), (c7lookup h.symbol).isSome := by
    intro h _
    rfl
  exact ⟨hT, (portfolioWeight_sum c7txs c7lookup hsucc).1 hT,
    (portfolioWeight_sum [] c7lookup hsucc2).2 rfl⟩

/-- A five-share ledger for the C3 counterexample and witness. -/
def c3ledger : List Transaction := [⟨"A", TxType.BUY, 5, 20, 0⟩]

/-- Claim C3, counterexample: the insufficient-shares rejection does not name
the requested quantity.  Selling 7 and selling 6 from a 5-share position are
both rejected with the identical message
`Insufficient shares. You have 5 shares of A`, which therefore names only the
available quantity and the symbol. -/
theorem insufficientShares_message_counterexample :
    (addTransaction c3ledger ⟨"A", TxType.SELL, 7, 1, 0⟩).1 =
      AddTxOutcome.rejected "Insufficient shares. You have 5 shares of A" ∧
    (addTransaction c3ledger ⟨"A", TxType.SELL, 6, 1, 0⟩).1 =
      AddTxOutcome.rejected "Insufficient shares. You have 5 shares of A" ∧
    (7 : ℚ) ≠ 6 := by
  have hupper : toUpperString "A" = "A" := by decide
  have hmsg : insufficientSharesMessage 5 "A" =
      "Insufficient shares. You have 5 shares of A" := rfl
  refine ⟨?_, ?_, by norm_num⟩ <;>
    norm_num [addTransaction, hupper, hmsg, calculateHoldings, holdingsMap, holdingsStep,
      accGet, accSet, c3ledger, List.find?]

/-- Claim C3, amended: before a SELL is appended, holdings for its symbol are
recomputed from the existing ledger; when the requested quantity exceeds the
held quantity (or no holding exists), `addTransaction` rejects with a
client-visible insufficient-shares error naming the available quantity and
the symbol (not the requested quantity), no transaction is appended to the
ledger, and retrying the identical request returns the identical rejection. -/
theorem addTransaction_sell_guard
    (ledger : List Transaction) (body : AddTxBody)
    (hsell : body.type = TxType.SELL)
    (hover : ∀ h ∈ calculateHoldings ledger,
      h.symbol = toUpperString body.symbol → h.quantity < body.quantity) :
    ∃ avail : ℚ,
      addTransaction ledger body =
        (AddTxOutcome.rejected (insufficientSharesMessage avail body.symbol), ledger) ∧
      (avail = 0 ∨ ∃ h ∈ calculateHoldings ledger,
        h.symbol = toUpperString body.symbol ∧ avail = h.quantity) ∧
      addTransaction ((addTransaction ledger body).2) body =
        addTransaction ledger body := by
  obtain ⟨sym, ty, qty, pr, com⟩ := body
  simp only at hsell
  subst hsell
  cases hfind : (calculateHoldings ledger).find?
      (fun h => h.symbol = toUpperString sym) with
  | none =>
      have heq : addTransaction ledger ⟨sym, TxType.SELL, qty, pr, com⟩ =
          (AddTxOutcome.rejected (insufficientSharesMessage 0 sym), ledger) := by
        simp [addTransaction, hfind]
      exact ⟨0, heq, Or.inl rfl, by rw [heq]; exact heq⟩
  | some h =>
      have hmem := List.mem_of_find?_eq_some hfind
      have hsym : h.symbol = toUpperString sym := by simpa using List.find?_some hfind
      have hlt : h.quantity < qty := hover h hmem hsym
      have heq : addTransaction ledger ⟨sym, TxType.SELL, qty, pr, com⟩ =
          (AddTxOutcome.rejected (insufficientSharesMessage h.quantity sym), ledger) := by
        simp [addTransaction, hfind, hlt]
      exact ⟨h.quantity, heq, Or.inr ⟨h, hmem, hsym, rfl⟩, by rw [heq]; exact heq⟩

/-- Witness for `addTransaction_sell_guard`: selling 7 from the 5-share
ledger. -/
theorem addTransaction_sell_guard_witness :
    ∃ avail : ℚ,
      addTransaction c3ledger ⟨"A", TxType.SELL, 7, 1, 0⟩ =
        (AddTxOutcome.rejected (insufficientSharesMessage avail "A"), c3ledger) ∧
      (avail = 0 ∨ ∃ h ∈ calculateHoldings c3ledger,
        h.symbol = toUpperString "A" ∧ avail = h.quantity) ∧
      addTransaction ((addTransaction c3ledger ⟨"A", TxType.SELL, 7, 1, 0⟩).2)
          ⟨"A", TxType.SELL, 7, 1, 0⟩ =
        addTransaction c3ledger ⟨"A", TxType.SELL, 7, 1, 0⟩ := by
  refine addTransaction_sell_guard c3ledger ⟨"A", TxType.SELL, 7, 1, 0⟩ rfl ?_
  intro h hm _
  norm_num [calculateHoldings, holdingsMap, holdingsStep, accGet, accSet, c3ledger] at hm
  rw [hm]
  norm_num

/-- Counting rows with a fixed id: at most one when ids are distinct. -/
theorem countP_id_le_one (rows : List Portfolio) (i : ℕ)
    (hnd : (rows.map Portfolio.id).Nodup) :
    rows.countP (fun p => decide (p.id = i)) ≤ 1 := by
  have h1 : rows.countP (fun p => decide (p.id = i)) =
      (rows.map Portfolio.id).countP (fun x => decide (x = i)) := by
    rw [List.countP_map]
    rfl
  have h2 : (rows.map Portfolio.id).countP (fun x => decide (x = i)) =
      (rows.map Portfolio.id).count i := by
    refine List.countP_congr ?_
    intro x _
    simp
  rw [h1, h2]
  exact List.nodup_iff_count_le_one.mp hnd i

/-- A map step that never turns the counted predicate on does not increase
the count. -/
theorem countP_map_le_of_imp (l : List Portfolio) (f : Portfolio → Portfolio)
    (p : Portfolio → Bool) (h : ∀ a ∈ l, p (f a) = true → p a = true) :
    (l.map f).countP p ≤ l.countP p := by
  rw [List.countP_map]
  exact List.countP_mono_left h

/-- A map step that leaves the counted predicate pointwise unchanged leaves
the count unchanged. -/
theorem countP_map_congr (l : List Portfolio) (f : Portfolio → Portfolio)
    (p : Portfolio → Bool) (h : ∀ a ∈ l, p (f a) = p a) :
    (l.map f).countP p = l.countP p := by
  rw [List.countP_map]
  refine List.countP_congr ?_
  intro a ha
  rw [Function.comp_apply, h a ha]

/-- If every row satisfying the counted predicate carries the fixed id `i`
and ids are distinct, the count is at most one. -/
theorem countP_le_one_of_fixed_id (rows : List Portfolio) (i : ℕ)
    (p : Portfolio → Bool) (hnd : (rows.map Portfolio.id).Nodup)
    (h : ∀ q ∈ rows, p q = true → q.id = i) :
    rows.countP p ≤ 1 := by
  refine le_trans (List.countP_mono_left ?_) (countP_id_le_one rows i hnd)
  intro q hq hpq
  simpa using h q hq hpq

/-- Row-wise field rewrites (`unsetDefaults`, the `isDefault` writes) keep
the list of ids. -/
theorem map_ids_of_id_preserving (l : List Portfolio) (f : Portfolio → Portfolio)
    (h : ∀ a ∈ l, (f a).id = a.id) :
    (l.map f).map Portfolio.id = l.map Portfolio.id := by
  rw [List.map_map]
  exact List.map_congr_left h

/-- `createPortfolio` preserves table well-formedness and the at-most-one-
default-per-user invariant: a default insert first unsets the user's other
defaults. -/
theorem createPortfolio_preserves (u' : ℕ) (dflt : Bool) (s : PortfolioTable)
    (hwf : TableWF s) (hinv : ∀ u, atMostOneDefault u s) :
    TableWF (createPortfolio u' dflt s) ∧
    ∀ u, atMostOneDefault u (createPortfolio u' dflt s) := by
  obtain ⟨hnd, hlt⟩ := hwf
  have hfresh : s.nextId ∉ s.rows.map Portfolio.id := by
    intro hmem
    obtain ⟨p, hp, hid⟩ := List.mem_map.mp hmem
    exact absurd hid (Nat.ne_of_lt (hlt p hp))
  have hunset_ids : (unsetDefaults u' s.rows).map Portfolio.id = s.rows.map Portfolio.id := by
    refine map_ids_of_id_preserving _ _ ?_
    intro a _
    by_cases hcond : a.userId = u' ∧ a.isDefault <;> simp [hcond]
  cases dflt with
  | false =>
      have hrows : (createPortfolio u' false s).rows =
          s.rows ++ [Portfolio.mk s.nextId u' false] := rfl
      have hnext : (createPortfolio u' false s).nextId = s.nextId + 1 := rfl
      refine ⟨⟨?_, ?_⟩, ?_⟩
      · rw [hrows, List.map_append]
        simp only [List.map_cons, List.map_nil]
        rw [List.nodup_append]
        exact ⟨hnd, List.nodup_singleton _, by simpa using hfresh⟩
      · intro p hp
        rw [hrows] at hp
        rw [hnext]
        rcases List.mem_append.mp hp with h | h
        · exact Nat.lt_succ_of_lt (hlt p h)
        · simp only [List.mem_singleton] at h
          simp [h]
      · intro u
        unfold atMostOneDefault
        rw [hrows, List.countP_append]
        have hz : ([Portfolio.mk s.nextId u' false]).countP
            (fun p => decide (p.userId = u ∧ p.isDefault)) = 0 := by
          simp
        rw [hz, Nat.add_zero]
        exact hinv u
  | true =>
      have hrows : (createPortfolio u' true s).rows =
          (unsetDefaults u' s.rows) ++ [Portfolio.mk s.nextId u' true] := rfl
      have hnext : (createPortfolio u' true s).nextId = s.nextId + 1 := rfl
      refine ⟨⟨?_, ?_⟩, ?_⟩
      · rw [hrows, List.map_append, hunset_ids]
        simp only [List.map_cons, List.map_nil]
        rw [List.nodup_append]
        exact ⟨hnd, List.nodup_singleton _, by simpa using hfresh⟩
      · intro p hp
        rw [hrows] at hp
        rw [hnext]
        rcases List.mem_append.mp hp with h | h
        · obtain ⟨r, hr, rfl⟩ := List.mem_map.mp h
          have hid : ((if r.userId = u' ∧ r.isDefault then
              { r with isDefault := false } else r) : Portfolio).id = r.id := by
            by_cases hcond : r.userId = u' ∧ r.isDefault <;> simp [hcond]
          exact lt_of_eq_of_lt hid (Nat.lt_succ_of_lt (hlt r hr))
        · simp only [List.mem_singleton] at h
          simp [h]
      · intro u
        unfold atMostOneDefault
        rw [hrows, List.countP_append]
        by_cases hu : u = u'
        · subst hu
          have hbase : (unsetDefaults u s.rows).countP
              (fun p => decide (p.userId = u ∧ p.isDefault)) = 0 := by
            rw [unsetDefaults, List.countP_map, List.countP_eq_zero]
            intro a _
            by_cases hcond : a.userId = u ∧ a.isDefault
            · simp [hcond]
            · simp only [Function.comp_apply, if_neg hcond]
              simpa using hcond
          rw [hbase]
          simp
        · have hbase : (unsetDefaults u' s.rows).countP
              (fun p => decide (p.userId = u ∧ p.isDefault)) =
              s.rows.countP (fun p => decide (p.userId = u ∧ p.isDefault)) := by
            refine countP_map_congr _ _ _ ?_
            intro a _
            by_cases hcond : a.userId = u' ∧ a.isDefault
            · simp [hcond]
              exact fun h => hu h.symm
            · simp [hcond]
          have hz : ([Portfolio.mk s.nextId u' true]).countP
              (fun p => decide (p.userId = u ∧ p.isDefault)) = 0 := by
            simp
            exact fun h => hu h.symm
          rw [hbase, hz, Nat.add_zero]
          exact hinv u

/-- `updatePortfolio` preserves table well-formedness and the at-most-one-
default-per-user invariant: setting a portfolio default unsets the user's
other defaults first. -/
theorem updatePortfolio_preserves (u' pid : ℕ) (d : Option Bool) (s : PortfolioTable)
    (hwf : TableWF s) (hinv : ∀ u, atMostOneDefault u s) :
    TableWF (updatePortfolio u' pid d s) ∧
    ∀ u, atMostOneDefault u (updatePortfolio u' pid d s) := by
  obtain ⟨hnd, hlt⟩ := hwf
  cases hfind : s.rows.find? (fun p => decide (p.id = pid ∧ p.userId = u')) with
  | none =>
      have hres : updatePortfolio u' pid d s = s := by
        unfold updatePortfolio
        rw [hfind]
      rw [hres]
      exact ⟨⟨hnd, hlt⟩, hinv⟩
  | some p =>
      have hpmem : p ∈ s.rows := List.mem_of_find?_eq_some hfind
      have hpprop : p.id = pid ∧ p.userId = u' := by simpa using List.find?_some hfind
      have huniq : ∀ q ∈ s.rows, q.id = pid → q = p := by
        intro q hq hqid
        exact List.inj_on_of_nodup_map hnd hq hpmem (by rw [hqid, hpprop.1])
      rcases d with _ | b
      · -- body.isDefault absent: the write re-stores the found value
        have hres : updatePortfolio u' pid none s =
            ⟨s.nextId, s.rows.map (fun q =>
              if q.id = pid then { q with isDefault := p.isDefault } else q)⟩ := by
          unfold updatePortfolio
          rw [hfind]
          simp
        have hmap : s.rows.map (fun q =>
            if q.id = pid then { q with isDefault := p.isDefault } else q) = s.rows := by
          have hpt : ∀ q ∈ s.rows,
              (if q.id = pid then { q with isDefault := p.isDefault } else q) = id q := by
            intro q hq
            by_cases hqid : q.id = pid
            · rw [if_pos hqid, huniq q hq hqid]
              cases p
              rfl
            · rw [if_neg hqid]
              rfl
          rw [List.map_congr_left hpt, List.map_id]
        have hid : updatePortfolio u' pid none s = s := by
          rw [hres, hmap]
        rw [hid]
        exact ⟨⟨hnd, hlt⟩, hinv⟩
      · cases b with
        | false =>
            have hres : updatePortfolio u' pid (some false) s =
                ⟨s.nextId, s.rows.map (fun q =>
                  if q.id = pid then { q with isDefault := false } else q)⟩ := by
              unfold updatePortfolio
              rw [hfind]
              simp
            rw [hres]
            have hids : (s.rows.map (fun q =>
                if q.id = pid then { q with isDefault := false } else q)).map Portfolio.id =
                s.rows.map Portfolio.id := by
              refine map_ids_of_id_preserving _ _ ?_
              intro a _
              by_cases hqid : a.id = pid <;> simp [hqid]
            refine ⟨⟨by rw [hids]; exact hnd, ?_⟩, ?_⟩
            · intro q hq
              obtain ⟨r, hr, rfl⟩ := List.mem_map.mp hq
              have hidr : (if r.id = pid then { r with isDefault := false } else r).id = r.id := by
                by_cases hqid : r.id = pid <;> simp [hqid]
              rw [hidr]
              exact hlt r hr
            · intro u
              unfold atMostOneDefault
              refine le_trans (countP_map_le_of_imp _ _ _ ?_) (hinv u)
              intro a _ hpa
              by_cases hqid : a.id = pid
              · rw [if_pos hqid] at hpa
                simp at hpa
              · rwa [if_neg hqid] at hpa
        | true =>
            have hres : updatePortfolio u' pid (some true) s =
                ⟨s.nextId, (s.rows.map (fun q =>
                  if q.userId = u' ∧ q.isDefault ∧ q.id ≠ pid then
                    { q with isDefault := false } else q)).map (fun q =>
                  if q.id = pid then { q with isDefault := true } else q)⟩ := by
              unfold updatePortfolio
              rw [hfind]
              simp
            rw [hres]
            have hgid : ∀ a : Portfolio, ((if a.userId = u' ∧ a.isDefault ∧ a.id ≠ pid then
                { a with isDefault := false } else a) : Portfolio).id = a.id := by
              intro a
              by_cases hcond : a.userId = u' ∧ a.isDefault ∧ a.id ≠ pid <;> simp [hcond]
            have hsid : ∀ a : Portfolio, ((if a.id = pid then
                { a with isDefault := true } else a) : Portfolio).id = a.id := by
              intro a
              by_cases hqid : a.id = pid <;> simp [hqid]
            have hids : ((s.rows.map (fun q =>
                if q.userId = u' ∧ q.isDefault ∧ q.id ≠ pid then
                  { q with isDefault := false } else q)).map (fun q =>
                if q.id = pid then { q with isDefault := true } else q)).map Portfolio.id =
                s.rows.map Portfolio.id := by
              rw [map_ids_of_id_preserving _ _ (fun a _ => hsid a),
                map_ids_of_id_preserving _ _ (fun a _ => hgid a)]
            have hrows1_user : ∀ a ∈ s.rows.map (fun q =>
                if q.userId = u' ∧ q.isDefault ∧ q.id ≠ pid then
                  { q with isDefault := false } else q), a.id = pid → a.userId = u' := by
              intro a ha haid
              obtain ⟨r0, hr0, rfl⟩ := List.mem_map.mp ha
              have hr0id : r0.id = pid := by rw [← hgid r0]; exact haid
              have hr0p : r0 = p := huniq r0 hr0 hr0id
              by_cases hcond : r0.userId = u' ∧ r0.isDefault ∧ r0.id ≠ pid
              · rw [if_pos hcond]
                show r0.userId = u'
                rw [hr0p]
                exact hpprop.2
              · rw [if_neg hcond]
                rw [hr0p]
                exact hpprop.2
            refine ⟨⟨by rw [hids]; exact hnd, ?_⟩, ?_⟩
            · intro q hq
              obtain ⟨r, hr, rfl⟩ := List.mem_map.mp hq
              obtain ⟨r0, hr0, rfl⟩ := List.mem_map.mp hr
              rw [hsid, hgid]
              exact hlt r0 hr0
            · intro u
              unfold atMostOneDefault
              by_cases hu : u = u'
              · subst hu
                -- after the unset pass, only the written row can be default
                refine countP_le_one_of_fixed_id _ pid _ (by rw [hids]; exact hnd) ?_
                intro q hq hpq
                obtain ⟨r, hr, rfl⟩ := List.mem_map.mp hq
                by_cases hrid : r.id = pid
                · simp [hrid]
                · obtain ⟨r0, hr0, rfl⟩ := List.mem_map.mp hr
                  rw [hgid r0] at hrid
                  exfalso
                  by_cases hcond : r0.userId = u ∧ r0.isDefault ∧ r0.id ≠ pid
                  · simp [hcond, hrid] at hpq
                  · have hcond2 : ¬(r0.userId = u ∧ r0.isDefault = true) :=
                      fun hh => hcond ⟨hh.1, hh.2, hrid⟩
                    simp [hcond2, hrid] at hpq
              · have hu' : ¬ u' = u := fun h => hu h.symm
                have hcount : ((s.rows.map (fun q =>
                    if q.userId = u' ∧ q.isDefault ∧ q.id ≠ pid then
                      { q with isDefault := false } else q)).map (fun q =>
                    if q.id = pid then { q with isDefault := true } else q)).countP
                      (fun p => decide (p.userId = u ∧ p.isDefault)) =
                    s.rows.countP (fun p => decide (p.userId = u ∧ p.isDefault)) := by
                  rw [countP_map_congr _ _ _ ?h2, countP_map_congr _ _ _ ?h3]
                  case h2 =>
                    intro a ha
                    by_cases hrid : a.id = pid
                    · have huser : a.userId = u' := hrows1_user a ha hrid
                      have hne : ¬ a.userId = u := by rw [huser]; exact hu'
                      simp [hrid, hne]
                    · simp [hrid]
                  case h3 =>
                    intro a _
                    by_cases hcond : a.userId = u' ∧ a.isDefault ∧ a.id ≠ pid
                    · have hne : ¬ a.userId = u := by rw [hcond.1]; exact hu'
                      simp [hcond, hne, hu']
                    · simp [hcond]
                rw [hcount]
                exact hinv u

/-- `deletePortfolio` preserves table well-formedness and the at-most-one-
default-per-user invariant: deleting the default promotes at most one
remaining portfolio. -/
theorem deletePortfolio_preserves (u' pid : ℕ) (s : PortfolioTable)
    (hwf : TableWF s) (hinv : ∀ u, atMostOneDefault u s) :
    TableWF (deletePortfolio u' pid s) ∧
    ∀ u, atMostOneDefault u (deletePortfolio u' pid s) := by
  obtain ⟨hnd, hlt⟩ := hwf
  cases hfind : s.rows.find? (fun p => decide (p.id = pid ∧ p.userId = u')) with
  | none =>
      have hres : deletePortfolio u' pid s = s := by
        unfold deletePortfolio
        rw [hfind]
      rw [hres]
      exact ⟨⟨hnd, hlt⟩, hinv⟩
  | some p =>
      have hpmem : p ∈ s.rows := List.mem_of_find?_eq_some hfind
      have hpprop : p.id = pid ∧ p.userId = u' := by simpa using List.find?_some hfind
      have hsub : List.Sublist (s.rows.filter (fun q => decide (q.id ≠ pid))) s.rows :=
        List.filter_sublist s.rows
      have hnd1 : ((s.rows.filter (fun q => decide (q.id ≠ pid))).map Portfolio.id).Nodup :=
        (hsub.map Portfolio.id).nodup hnd
      have hlt1 : ∀ q ∈ s.rows.filter (fun q => decide (q.id ≠ pid)), q.id < s.nextId :=
        fun q hq => hlt q (List.mem_of_mem_filter hq)
      cases hdef : p.isDefault with
      | false =>
          have hres : deletePortfolio u' pid s =
              ⟨s.nextId, s.rows.filter (fun q => decide (q.id ≠ pid))⟩ := by
            unfold deletePortfolio
            rw [hfind]
            simp [hdef]
          rw [hres]
          exact ⟨⟨hnd1, hlt1⟩, fun u => le_trans (hsub.countP_le _) (hinv u)⟩
      | true =>
          cases hmin : ((s.rows.filter (fun q => decide (q.id ≠ pid))).filter
              (fun q => decide (q.userId = u'))).argmin Portfolio.id with
          | none =>
              have hres : deletePortfolio u' pid s =
                  ⟨s.nextId, s.rows.filter (fun q => decide (q.id ≠ pid))⟩ := by
                unfold deletePortfolio
                rw [hfind]
                simp only [hdef, if_true]
                rw [hmin]
              rw [hres]
              exact ⟨⟨hnd1, hlt1⟩, fun u => le_trans (hsub.countP_le _) (hinv u)⟩
          | some q =>
              have hq1 := List.argmin_mem hmin
              have hqmem : q ∈ s.rows.filter (fun r => decide (r.id ≠ pid)) :=
                List.mem_of_mem_filter hq1
              have hquser : q.userId = u' := by
                simpa using (List.mem_filter.mp hq1).2
              have hres : deletePortfolio u' pid s =
                  ⟨s.nextId, (s.rows.filter (fun r => decide (r.id ≠ pid))).map
                    (fun r => if r.id = q.id then { r with isDefault := true } else r)⟩ := by
                unfold deletePortfolio
                rw [hfind]
                simp only [hdef, if_true]
                rw [hmin]
              rw [hres]
              have hids : ((s.rows.filter (fun r => decide (r.id ≠ pid))).map
                  (fun r => if r.id = q.id then { r with isDefault := true } else r)).map
                  Portfolio.id =
                  (s.rows.filter (fun r => decide (r.id ≠ pid))).map Portfolio.id := by
                refine map_ids_of_id_preserving _ _ ?_
                intro a _
                by_cases hrid : a.id = q.id <;> simp [hrid]
              refine ⟨⟨by rw [hids]; exact hnd1, ?_⟩, ?_⟩
              · intro r hr
                obtain ⟨r1, hr1, rfl⟩ := List.mem_map.mp hr
                have hidr : (if r1.id = q.id then { r1 with isDefault := true } else r1).id =
                    r1.id := by
                  by_cases hrid : r1.id = q.id <;> simp [hrid]
                rw [hidr]
                exact hlt1 r1 hr1
              · intro u
                unfold atMostOneDefault
                by_cases hu : u = u'
                · subst hu
                  -- the deleted row was the user's unique default; none are
                  -- left in the filtered rows, and exactly one row is promoted
                  have hsplit := List.countP_eq_countP_filter_add s.rows
                    (fun r => decide (r.userId = u ∧ r.isDefault))
                    (fun r => decide (r.id ≠ pid))
                  have hpin : p ∈ s.rows.filter (fun r => !(decide (r.id ≠ pid))) := by
                    refine List.mem_filter.mpr ⟨hpmem, ?_⟩
                    simp [hpprop.1]
                  have hpos : 0 < (s.rows.filter (fun r => !(decide (r.id ≠ pid)))).countP
                      (fun r => decide (r.userId = u ∧ r.isDefault)) := by
                    refine List.countP_pos_iff.mpr ⟨p, hpin, ?_⟩
                    simp [hpprop.2, hdef]
                  have h0 : (s.rows.filter (fun r => decide (r.id ≠ pid))).countP
                      (fun r => decide (r.userId = u ∧ r.isDefault)) = 0 := by
                    have hle := hinv u
                    unfold atMostOneDefault at hle
                    omega
                  refine countP_le_one_of_fixed_id _ q.id _ (by rw [hids]; exact hnd1) ?_
                  intro r hr hpr
                  obtain ⟨r1, hr1, rfl⟩ := List.mem_map.mp hr
                  by_cases hrid : r1.id = q.id
                  · simp [hrid]
                  · exfalso
                    simp only [if_neg hrid] at hpr
                    exact absurd hpr (by simpa using List.countP_eq_zero.mp h0 r1 hr1)
                · have hcnt : ((s.rows.filter (fun r => decide (r.id ≠ pid))).map
                      (fun r => if r.id = q.id then { r with isDefault := true } else r)).countP
                        (fun r => decide (r.userId = u ∧ r.isDefault)) =
                      (s.rows.filter (fun r => decide (r.id ≠ pid))).countP
                        (fun r => decide (r.userId = u ∧ r.isDefault)) := by
                    refine countP_map_congr _ _ _ ?_
                    intro r1 hr1
                    by_cases hrid : r1.id = q.id
                    · have hr1q : r1 = q := List.inj_on_of_nodup_map hnd1 hr1 hqmem hrid
                      have hne : ¬ r1.userId = u := by
                        rw [hr1q, hquser]
                        exact fun h => hu h.symm
                      simp [hrid, hne]
                    · simp [hrid]
                  rw [hcnt]
                  exact le_trans (hsub.countP_le _) (hinv u)

/-- Any single portfolio API call preserves well-formedness and the
default-uniqueness invariant. -/
theorem applyOp_preserves (s : PortfolioTable) (op : PortfolioOp)
    (hwf : TableWF s) (hinv : ∀ u, atMostOneDefault u s) :
    TableWF (applyOp s op) ∧ ∀ u, atMostOneDefault u (applyOp s op) := by
  cases op with
  | create u d => exact createPortfolio_preserves u d s hwf hinv
  | update u pid d => exact updatePortfolio_preserves u pid d s hwf hinv
  | delete u pid => exact deletePortfolio_preserves u pid s hwf hinv

/-- Any sequence of portfolio API calls preserves well-formedness and the
default-uniqueness invariant. -/
theorem applyOps_preserves (ops : List PortfolioOp) :
    ∀ s : PortfolioTable, TableWF s → (∀ u, atMostOneDefault u s) →
    TableWF (applyOps s ops) ∧ ∀ u, atMostOneDefault u (applyOps s ops) := by
  induction ops with
  | nil =>
      intro s hwf hinv
      exact ⟨hwf, hinv⟩
  | cons op rest ih =>
      intro s hwf hinv
      have h := applyOp_preserves s op hwf hinv
      have hstep : applyOps s (op :: rest) = applyOps (applyOp s op) rest := rfl
      rw [hstep]
      exact ih (applyOp s op) h.1 h.2

/-- Claim C8: for every user and every sequence of `createPortfolio`,
`updatePortfolio` and `deletePortfolio` calls starting from a well-formed
table with at most one default portfolio per user, the state after each
operation (every prefix of the sequence) still has at most one portfolio
with `isDefault = true` for that user — the unset-then-set writes keep
per-user defaults unique. -/
theorem default_unique_invariant
    (s : PortfolioTable) (ops : List PortfolioOp)
    (hwf : TableWF s) (hinv : ∀ u, atMostOneDefault u s) :
    ∀ (n : ℕ) (u : ℕ), atMostOneDefault u (applyOps s (ops.take n)) := by
  intro n u
  exact (applyOps_preserves (ops.take n) s hwf hinv).2 u

/-- A concrete operation sequence for the C8 witness: two default creates for
user 1, a default re-assignment, a delete of the current default, and a
non-default create for user 2. -/
def c8ops : List PortfolioOp :=
  [PortfolioOp.create 1 true, PortfolioOp.create 1 true,
   PortfolioOp.update 1 0 (some true), PortfolioOp.delete 1 1,
   PortfolioOp.create 2 false]

/-- Witness for `default_unique_invariant` from the empty table over the
whole `c8ops` sequence. -/
theorem default_unique_invariant_witness :
    atMostOneDefault 1 (applyOps ⟨0, []⟩ (c8ops.take 5)) := by
  refine default_unique_invariant ⟨0, []⟩ c8ops ⟨?_, ?_⟩ ?_ 5 1
  · simp
  · intro p hp
    simp at hp
  · intro u
    simp [atMostOneDefault]

end Stocks
